import Mathlib

/-!
Verification development for a small proof-of-work blockchain engine
(`blockchain.py`): transactions with scripted spending conditions, a Merkle
commitment over transaction hashes, block validation producing an updated
UTXO view, and a multi-branch chain store with heaviest-work tip selection.

Modelling conventions:
* Python dicts are insertion-ordered association lists (`List (κ × α)`);
  assignment to an existing key updates the value in place, a new key is
  appended at the end, exactly as in CPython.
* SHA-256 (`hashlib`), `dill` serialization and the derived hash functions
  `Transaction.getHash` / `Block.getHash` are opaque external primitives;
  they are passed in as explicit function parameters (`txH`, `hf`, `sha`).
* Python machine floats for cumulative work (`genesisTarget / target`,
  `float('inf')`) are modelled exactly as `WithTop ℚ` (`⊤` = infinity);
  the claims under study concern the bookkeeping recurrence, not rounding.
* A Python function raising an uncaught exception is modelled by `none`
  at the point where the exception escapes.
-/

/-! ## Python-dict association lists -/

/-- First-match lookup in an insertion-ordered association list
(Python `d[k]` / `d.get(k)` / `k in d`). -/
def dlookup {κ α : Type} [DecidableEq κ] : List (κ × α) → κ → Option α
  | [], _ => none
  | (k', v) :: rest, k => if k' = k then some v else dlookup rest k

/-- Python `k in d`. -/
def dcontains {κ α : Type} [DecidableEq κ] (l : List (κ × α)) (k : κ) : Bool :=
  (dlookup l k).isSome

/-- Python `d[k] = v`: update in place if the key exists, else append. -/
def dinsert {κ α : Type} [DecidableEq κ] : List (κ × α) → κ → α → List (κ × α)
  | [], k, v => [(k, v)]
  | (k', v') :: rest, k, v =>
      if k' = k then (k', v) :: rest else (k', v') :: dinsert rest k v

/-- Python `del d[k]` (keys are unique by construction, so dropping every
occurrence of the key is the same as dropping the single entry). -/
def derase {κ α : Type} [DecidableEq κ] : List (κ × α) → κ → List (κ × α)
  | [], _ => []
  | (k', v) :: rest, k =>
      if k' = k then derase rest k else (k', v) :: derase rest k

theorem dlookup_dinsert_self {κ α : Type} [DecidableEq κ]
    (l : List (κ × α)) (k : κ) (v : α) : dlookup (dinsert l k v) k = some v := by
  induction l with
  | nil => simp [dinsert, dlookup]
  | cons p rest ih =>
      by_cases h : p.1 = k
      · simp [dinsert, h, dlookup]
      · simp [dinsert, h, dlookup, ih]

theorem dlookup_dinsert_ne {κ α : Type} [DecidableEq κ]
    (l : List (κ × α)) (k k' : κ) (v : α) (h : k' ≠ k) :
    dlookup (dinsert l k v) k' = dlookup l k' := by
  have hk : ¬ k = k' := fun hh => h hh.symm
  induction l with
  | nil => simp [dinsert, dlookup, hk]
  | cons p rest ih =>
      by_cases hp : p.1 = k
      · subst hp
        simp [dinsert, dlookup, hk]
      · simp only [dinsert, hp, if_neg hp, dlookup]
        by_cases hp' : p.1 = k'
        · simp [dlookup, hp']
        · simp [dlookup, hp', ih]

theorem dlookup_derase {κ α : Type} [DecidableEq κ]
    (l : List (κ × α)) (k k' : κ) (h : k' ≠ k) :
    dlookup (derase l k) k' = dlookup l k' := by
  have hk : ¬ k = k' := fun hh => h hh.symm
  induction l with
  | nil => simp [derase, dlookup]
  | cons p rest ih =>
      obtain ⟨pk, pv⟩ := p
      by_cases hp : pk = k
      · simp [derase, hp, dlookup, hk, ih]
      · by_cases hp' : pk = k'
        · simp [derase, hp, dlookup, hp', h]
        · simp [derase, hp, dlookup, hp', ih]

/-! ## Outputs, inputs, transactions -/

/-- Coarse model of a Python value as seen by the validation logic: its
truthiness and whether it is of type `bool`.  The constraint scripts are
arbitrary Python callables, so their return value can be any object. -/
structure PyVal where
  truthy : Bool
  isBool : Bool
deriving DecidableEq, Repr

/-- The Python `True` literal. -/
def pyTrue : PyVal := ⟨true, true⟩

/-- The Python `False` literal. -/
def pyFalse : PyVal := ⟨false, true⟩

/-- A constraint-script invocation either raises or returns a value. -/
inductive PredResult where
  | exn
  | ret (v : PyVal)

/-- Satisfier argument lists (opaque objects; integers suffice here). -/
abbrev Satisfier := List Int

/-- `Output`: a spendable value cell with an attached constraint script. -/
structure Output where
  constraint : Option (Satisfier → PredResult)
  amount : Int

/-- `Output.can_be_spent`: no constraint means `True`; otherwise the
constraint's return value is passed through unchanged, and an exception
yields `False`.  (Call sites use the result's truthiness.) -/
def Output.can_be_spent (o : Output) (satisfier : Satisfier) : PyVal :=
  match o.constraint with
  | none => pyTrue
  | some f =>
      match f satisfier with
      | .exn => pyFalse
      | .ret v => v

/-- `Input`: a reference to a prior output plus the satisfier data. -/
structure Input where
  txHash : Nat
  txIdx : Nat
  satisfier : Satisfier

/-- The UTXO key `(inp.txHash, inp.txIdx)`. -/
def inputKey (inp : Input) : Nat × Nat := (inp.txHash, inp.txIdx)

/-- UTXO mapping `(txHash, outputIndex) → Output` (a Python dict). -/
abbrev UtxoMap := List ((Nat × Nat) × Output)

/-- `Transaction` (the opaque `data` payload only feeds the abstracted
content hash and is omitted). -/
structure Transaction where
  inputs : Option (List Input)
  outputs : Option (List Output)

/-- Python truthiness of an optional list (`None` and `[]` are falsy). -/
def optTruthy {α : Type} : Option (List α) → Bool
  | none => false
  | some [] => false
  | some (_ :: _) => true

/-- `sum(output.amount for output in outputs)` over the outputs field. -/
def outSum (t : Transaction) : Int :=
  ((t.outputs.getD []).map Output.amount).sum

/-- `Transaction.validateMint`: `inputs` must be `None` (an empty list does
not qualify), outputs must be truthy, and the created coins must not exceed
the cap. -/
def Transaction.validateMint (t : Transaction) (maxCoinsToCreate : Int) : Bool :=
  if t.inputs.isSome then false
  else if optTruthy t.outputs then decide (outSum t ≤ maxCoinsToCreate)
  else false

/-- The input loop of `Transaction.validate`: accumulate the referenced
amounts, failing on a missing entry or a rejected satisfier. -/
def spendFold (u : UtxoMap) : List Input → Int → Option Int
  | [], acc => some acc
  | inp :: rest, acc =>
      match dlookup u (inputKey inp) with
      | none => none
      | some o =>
          if (o.can_be_spent inp.satisfier).truthy then
            spendFold u rest (acc + o.amount)
          else none

/-- `Transaction.validate`: falsy inputs (None or empty) are trivially
valid; falsy outputs invalidate; otherwise every input must resolve and be
spendable and the referenced amounts must cover the output total. -/
def Transaction.validate (t : Transaction) (unspentOutputDict : UtxoMap) : Bool :=
  if optTruthy t.inputs = false then true
  else if optTruthy t.outputs = false then false
  else
    match spendFold unspentOutputDict (t.inputs.getD []) 0 with
    | none => false
    | some input_sum => decide (outSum t ≤ input_sum)

/-! ## Merkle tree -/

/-- Python `n.to_bytes(32, 'big')` for 256-bit values, as a list of bytes. -/
def toBytes32 (n : Nat) : List Nat :=
  (List.range 32).map (fun i => n / 256 ^ (31 - i) % 256)

/-- One combining step: `sha256(left_32_bytes ++ right_32_bytes)` read back
as a big-endian integer; `sha` is the opaque SHA-256 primitive. -/
def combine (sha : List Nat → Nat) (left right : Nat) : Nat :=
  sha (toBytes32 left ++ toBytes32 right)

/-- The inner `for i in range(0, len(current_level), 2)` loop of
`calcMerkleRoot`: the right sibling is `current_level[i + 1]` when present
and the literal `0` otherwise. -/
def pairStep (sha : List Nat → Nat) : List Nat → List Nat
  | [] => []
  | [x] => [combine sha x 0]
  | x :: y :: rest => combine sha x y :: pairStep sha rest

theorem pairStep_length (sha : List Nat → Nat) (l : List Nat) :
    (pairStep sha l).length = (l.length + 1) / 2 := by
  induction l using pairStep.induct sha with
  | case1 => simp [pairStep]
  | case2 x => simp [pairStep]
  | case3 x y rest ih =>
      simp only [pairStep, List.length_cons, ih]
      omega

/-- The `while len(current_level) > 1` loop of `calcMerkleRoot`. -/
def rootLoop (sha : List Nat → Nat) (l : List Nat) : Nat :=
  if h : 1 < l.length then rootLoop sha (pairStep sha l) else l.headD 0
termination_by l.length
decreasing_by
  rw [pairStep_length]
  omega

/-- `HashableMerkleTree.calcMerkleRoot` over the list of leaf hashes
(`self.hashableList`): `0` when empty, else reduce levels to a single
value. -/
def calcMerkleRoot (sha : List Nat → Nat) (hashableList : List Nat) : Nat :=
  if hashableList = [] then 0 else rootLoop sha hashableList

/-- Modelled from the spec (§4.3 MerkleTree): if a level has an odd count,
pad the final unpaired hash with a sibling of literal value 0 -- i.e. append
a `0` element -- then combine exact adjacent pairs. -/
def specPad (l : List Nat) : List Nat :=
  if l.length % 2 = 1 then l ++ [0] else l

/-- Modelled from the spec: combine exact adjacent pairs left-to-right as
`sha256(left_32_bytes ++ right_32_bytes)`. -/
def specPairs (sha : List Nat → Nat) : List Nat → List Nat
  | [] => []
  | [_] => []
  | x :: y :: rest => combine sha x y :: specPairs sha rest

theorem specPairs_length (sha : List Nat → Nat) (m : List Nat) :
    (specPairs sha m).length = m.length / 2 := by
  induction m using specPairs.induct sha with
  | case1 => simp [specPairs]
  | case2 x => simp [specPairs]
  | case3 x y rest ih =>
      simp only [specPairs, List.length_cons, ih]
      omega

theorem specPairs_specPad_length (sha : List Nat → Nat) (l : List Nat) :
    (specPairs sha (specPad l)).length = (l.length + 1) / 2 := by
  unfold specPad
  by_cases hodd : l.length % 2 = 1
  · rw [if_pos hodd, specPairs_length]
    simp only [List.length_append, List.length_cons, List.length_nil]
  · rw [if_neg hodd, specPairs_length]
    omega

/-- Modelled from the spec (§4.3 MerkleTree `root()`): empty input is 0, a
single item is its own hash (tree of height 0), otherwise pad-and-pair each
level until one value remains. -/
def specRoot (sha : List Nat → Nat) (l : List Nat) : Nat :=
  match hl : l with
  | [] => 0
  | [x] => x
  | _ :: _ :: _ => specRoot sha (specPairs sha (specPad l))
termination_by l.length
decreasing_by
  rw [specPairs_specPad_length]
  subst hl
  simp only [List.length_cons]
  omega

theorem pairStep_eq_specPairs_specPad (sha : List Nat → Nat) (l : List Nat) :
    pairStep sha l = specPairs sha (specPad l) := by
  induction l using pairStep.induct sha with
  | case1 => simp [pairStep, specPad, specPairs]
  | case2 x => simp [pairStep, specPad, specPairs]
  | case3 x y rest ih =>
      have hmod : (x :: y :: rest).length % 2 = rest.length % 2 := by
        simp only [List.length_cons]
        omega
      have hpad : specPad (x :: y :: rest) = x :: y :: specPad rest := by
        unfold specPad
        rw [hmod]
        by_cases hodd : rest.length % 2 = 1
        · rw [if_pos hodd, if_pos hodd]
          rfl
        · rw [if_neg hodd, if_neg hodd]
      rw [pairStep, ih, hpad, specPairs]

theorem rootLoop_eq_specRoot (sha : List Nat → Nat) (l : List Nat)
    (hne : l ≠ []) : rootLoop sha l = specRoot sha l := by
  have main : ∀ n (m : List Nat), m.length = n → m ≠ [] →
      rootLoop sha m = specRoot sha m := by
    intro n
    induction n using Nat.strong_induction_on with
    | _ n ih =>
        intro m hn hne
        match m, hne with
        | [x], _ =>
            rw [rootLoop, specRoot]
            simp
        | x :: y :: rest, _ =>
            have hlen : 1 < (x :: y :: rest).length := by
              simp only [List.length_cons]; omega
            rw [rootLoop, dif_pos hlen, specRoot,
              pairStep_eq_specPairs_specPad]
            have hplen : (specPairs sha (specPad (x :: y :: rest))).length =
                ((x :: y :: rest).length + 1) / 2 :=
              specPairs_specPad_length sha _
            have hpne : specPairs sha (specPad (x :: y :: rest)) ≠ [] := by
              intro hempty
              rw [hempty] at hplen
              simp only [List.length_nil, List.length_cons] at hplen
              omega
            subst hn
            exact ih _ (by simp only [List.length_cons]; omega) _ hplen hpne
  exact main l.length l rfl hne

/-! ## Blocks -/

/-- `Block`: header fields plus the transaction list committed in
`block_contents` (the Merkle tree object stores the transactions in
`.objects`; validation only reads those, so they are embedded directly). -/
structure Block where
  prior_block_hash : Option Nat
  target : Nat
  nonce : Nat
  timestamp : Option Nat
  transactions : List Transaction

/-- The inner input loop of `Block.validate` for a non-coinbase
transaction: each referenced key must be neither already spent in this
block nor missing from the running UTXO view, and its satisfier must be
accepted; accepted keys are added to the `spent` set (represented as a
duplicate-free list). -/
def checkInputs (cur : UtxoMap) : List Input → List (Nat × Nat) →
    Option (List (Nat × Nat))
  | [], spent => some spent
  | inp :: rest, spent =>
      if inputKey inp ∈ spent then none
      else
        match dlookup cur (inputKey inp) with
        | none => none
        | some o =>
            if (o.can_be_spent inp.satisfier).truthy then
              checkInputs cur rest (spent ++ [inputKey inp])
            else none

/-- `for idx, out in enumerate(tx.outputs): current_utxos[(tx_hash, idx)] = out` -/
def insertOutputsAux (h : Nat) : List Output → Nat → UtxoMap → UtxoMap
  | [], _, cur => cur
  | o :: rest, i, cur => insertOutputsAux h rest (i + 1) (dinsert cur (h, i) o)

/-- `if tx.outputs:` guard plus the output-insertion loop, keyed by the
transaction's content hash `txH tx`. -/
def insertOutputs (txH : Transaction → Nat) (tx : Transaction)
    (cur : UtxoMap) : UtxoMap :=
  if optTruthy tx.outputs then insertOutputsAux (txH tx) (tx.outputs.getD []) 0 cur
  else cur

/-- `for utxo_key in spent: del current_utxos[utxo_key]` -/
def eraseAll (cur : UtxoMap) (spent : List (Nat × Nat)) : UtxoMap :=
  spent.foldl derase cur

/-- The `for idx, tx in enumerate(transactions)` loop of `Block.validate`:
the transaction at index 0 must be a coinbase whose outputs (when truthy)
pass `validateMint`; every later transaction must have `inputs` present and
pass the per-input checks; each transaction's outputs are then inserted. -/
def processTxs (txH : Transaction → Nat) (maxMint : Int) :
    List Transaction → Bool → UtxoMap → List (Nat × Nat) →
    Option (UtxoMap × List (Nat × Nat))
  | [], _, cur, spent => some (cur, spent)
  | tx :: rest, isFirst, cur, spent =>
      if isFirst then
        if tx.inputs.isSome || (optTruthy tx.outputs && !(tx.validateMint maxMint)) then
          none
        else processTxs txH maxMint rest false (insertOutputs txH tx cur) spent
      else
        match tx.inputs with
        | none => none
        | some inps =>
            match checkInputs cur inps spent with
            | none => none
            | some spent1 =>
                processTxs txH maxMint rest false (insertOutputs txH tx cur) spent1

/-- `Block.validate`: reject if the block hash (`hf b`, abstracting
`getHash`) does not beat the target; an empty transaction list yields the
(deep-copied, hence unchanged) input UTXO set; otherwise run the
transaction loop and finally delete the spent keys.  `none` is the invalid
marker (Python `None`). -/
def Block.validate (hf : Block → Nat) (txH : Transaction → Nat) (b : Block)
    (unspentOutputs : UtxoMap) (maxMint : Int) : Option UtxoMap :=
  if b.target ≤ hf b then none
  else if b.transactions.isEmpty then some unspentOutputs
  else
    match processTxs txH maxMint b.transactions true unspentOutputs [] with
    | none => none
    | some (cur, spent) => some (eraseAll cur spent)

/-! ## Blockchain -/

/-- Work values: Python floats with `float('inf')`, modelled as `WithTop ℚ`. -/
abbrev Work := WithTop ℚ

/-- `Blockchain.getWork`: infinite for target 0, else `genesisTarget / target`. -/
def getWork (genesisTarget target : Nat) : Work :=
  if target = 0 then ⊤ else (((genesisTarget : ℚ) / (target : ℚ) : ℚ) : Work)

/-- Blockchain state: the four bookkeeping dicts plus the two construction
parameters.  `utxo_sets` stores whatever `Block.validate` returned, which
in Python may itself be `None`. -/
structure BState where
  maxMintCoinsPerTx : Int
  genesisTarget : Nat
  blocks : List (Nat × Block)
  block_heights : List (Nat × List Nat)
  cumulative_work : List (Nat × Work)
  utxo_sets : List (Nat × Option UtxoMap)

/-- The genesis block created by `Blockchain.__init__`: parent-hash
sentinel 0, the genesis target, no transactions; `gnonce` stands for the
nonce found by `mine` (whose unbounded search is not modelled). -/
def genesisBlock (genesisTarget gnonce : Nat) : Block :=
  ⟨some 0, genesisTarget, gnonce, none, []⟩

/-- `Blockchain.__init__`: index the mined genesis block at height 0 with
cumulative work `getWork(genesisTarget)` and store its UTXO snapshot. -/
def Blockchain.init (hf : Block → Nat) (txH : Transaction → Nat)
    (genesisTarget : Nat) (maxMintCoinsPerTx : Int) (gnonce : Nat) : BState :=
  let g := genesisBlock genesisTarget gnonce
  let gh := hf g
  { maxMintCoinsPerTx := maxMintCoinsPerTx
    genesisTarget := genesisTarget
    blocks := [(gh, g)]
    block_heights := [(0, [gh])]
    cumulative_work := [(gh, getWork genesisTarget genesisTarget)]
    utxo_sets := [(gh, Block.validate hf txH g [] maxMintCoinsPerTx)] }

/-- `next(h for h, blocks in self.block_heights.items() if prior_hash in blocks)`:
the first height (in dict order) whose list contains the hash; `none`
models the uncaught `StopIteration`. -/
def findHeight : List (Nat × List Nat) → Nat → Option Nat
  | [], _ => none
  | (h, lst) :: rest, ph => if ph ∈ lst then some h else findHeight rest ph

/-- `if height not in self.block_heights: self.block_heights[height] = []`
followed by `self.block_heights[height].append(block_hash)`. -/
def appendAt : List (Nat × List Nat) → Nat → Nat → List (Nat × List Nat)
  | [], k, x => [(k, [x])]
  | (k', v) :: rest, k, x =>
      if k' = k then (k', v ++ [x]) :: rest else (k', v) :: appendAt rest k x

/-- `Blockchain.extend`.  Returns `some (accepted, newState)`; `none`
models an uncaught exception (missing height entry or missing parent
cumulative work, which cannot occur in reachable states).  A `None` block
argument and a `None` parent hash both fall under the `none` parent-hash
branch. -/
def Blockchain.extend (hf : Block → Nat) (txH : Transaction → Nat)
    (s : BState) (b : Block) : Option (Bool × BState) :=
  match b.prior_block_hash with
  | none => some (false, s)
  | some prior_hash =>
      if ¬ dcontains s.blocks prior_hash then some (false, s)
      else
        match (dlookup s.utxo_sets prior_hash).join with
        | none => some (false, s)
        | some parent_utxos =>
            match Block.validate hf txH b parent_utxos s.maxMintCoinsPerTx with
            | none => some (false, s)
            | some new_utxos =>
                let block_hash := hf b
                match findHeight s.block_heights prior_hash with
                | none => none
                | some parent_height =>
                    match dlookup s.cumulative_work prior_hash with
                    | none => none
                    | some parent_work =>
                        some (true,
                          { s with
                            blocks := dinsert s.blocks block_hash b
                            utxo_sets := dinsert s.utxo_sets block_hash (some new_utxos)
                            block_heights :=
                              appendAt s.block_heights (parent_height + 1) block_hash
                            cumulative_work :=
                              dinsert s.cumulative_work block_hash
                                (parent_work + getWork s.genesisTarget b.target) })

/-- The loop of `Blockchain.getTip`, carrying `max_work` and the current
tip (`self.blocks[block_hash]` lookup happens at each improvement). -/
def tipLoop (blocks : List (Nat × Block)) :
    List (Nat × Work) → Work → Option Block → Option Block
  | [], _, tip => tip
  | (h, w) :: rest, max_work, tip =>
      if max_work < w then tipLoop blocks rest w (dlookup blocks h)
      else tipLoop blocks rest max_work tip

/-- `Blockchain.getTip`: scan `cumulative_work` in insertion order starting
from `max_work = -1`, updating on strict improvement only. -/
def Blockchain.getTip (s : BState) : Option Block :=
  tipLoop s.blocks s.cumulative_work (((-1 : ℚ) : Work)) none

/-- Fold a sequence of `extend` calls; an exception outcome (`none`, never
reached from reachable states) keeps the pre-call state. -/
def extendAll (hf : Block → Nat) (txH : Transaction → Nat)
    (s : BState) (bs : List Block) : BState :=
  bs.foldl (fun st b =>
    match Blockchain.extend hf txH st b with
    | some (_, st1) => st1
    | none => st) s

/-! ## Derived notions used in the statements -/

/-- Total amount referenced by a list of inputs, counting one summand per
referencing input (a multiply-referenced entry is counted once per
occurrence, as the validation loop does). -/
def refSum (u : UtxoMap) (l : List Input) : Int :=
  (l.map (fun inp => ((dlookup u (inputKey inp)).map Output.amount).getD 0)).sum

/-- Keys of a dict are pairwise distinct (true of every Python dict). -/
def keysNodup {κ α : Type} (l : List (κ × α)) : Prop :=
  (l.map Prod.fst).Nodup

/-- The recorded list of block hashes at a given height. -/
def heightsAt (s : BState) (n : Nat) : List Nat :=
  (dlookup s.block_heights n).getD []

/-- `(k, w)` is the first entry of `l` attaining the maximum work: all
earlier entries are strictly below `w` and no entry exceeds it. -/
def IsFirstMax (l : List (Nat × Work)) (k : Nat) (w : Work) : Prop :=
  ∃ l1 l2, l = l1 ++ (k, w) :: l2 ∧ (∀ p ∈ l1, p.2 < w) ∧ (∀ p ∈ l2, p.2 ≤ w)

/-- The bookkeeping invariant of `Blockchain.extend` (claim C5): every
stored non-genesis block records its parent, a cumulative work equal to
the parent's plus `getWork` of its own target, a UTXO snapshot equal to
`Block.validate` applied to the parent's snapshot, and a height list entry
one past its parent's.  `L` is the universe of blocks ever submitted
(hashing is collision-free on it), `gh` the genesis hash. -/
def ChainInv (hf : Block → Nat) (txH : Transaction → Nat) (L : List Block)
    (gh : Nat) (s : BState) : Prop :=
  keysNodup s.block_heights ∧
  (∀ h b, dlookup s.blocks h = some b → b ∈ L ∧ hf b = h) ∧
  (∀ h b, dlookup s.blocks h = some b → h ≠ gh →
    ∃ ph, b.prior_block_hash = some ph ∧
      (∃ pb, dlookup s.blocks ph = some pb) ∧
      (∃ pw, dlookup s.cumulative_work ph = some pw ∧
        dlookup s.cumulative_work h =
          some (pw + getWork s.genesisTarget b.target)) ∧
      (∃ pu nu, dlookup s.utxo_sets ph = some (some pu) ∧
        Block.validate hf txH b pu s.maxMintCoinsPerTx = some nu ∧
        dlookup s.utxo_sets h = some (some nu)) ∧
      (∃ hp, ph ∈ heightsAt s hp ∧ h ∈ heightsAt s (hp + 1)))

/-! ## Supporting lemmas -/

theorem refSum_nil (u : UtxoMap) : refSum u [] = 0 := rfl

theorem refSum_cons (u : UtxoMap) (inp : Input) (rest : List Input) :
    refSum u (inp :: rest) =
      ((dlookup u (inputKey inp)).map Output.amount).getD 0 + refSum u rest := by
  simp [refSum]

theorem spendFold_eq_some_iff (u : UtxoMap) (l : List Input) :
    ∀ (acc s : Int), spendFold u l acc = some s ↔
      ((∀ inp ∈ l, ∃ o, dlookup u (inputKey inp) = some o ∧
          (o.can_be_spent inp.satisfier).truthy = true) ∧
        s = acc + refSum u l) := by
  induction l with
  | nil =>
      intro acc s
      rw [spendFold, refSum_nil]
      constructor
      · intro hsf
        refine ⟨by simp, ?_⟩
        injection hsf with hh
        omega
      · rintro ⟨-, hs⟩
        rw [hs]
        norm_num
  | cons inp rest ih =>
      intro acc s
      constructor
      · intro hsf
        cases hlk : dlookup u (inputKey inp) with
        | none => simp [spendFold, hlk] at hsf
        | some o =>
            by_cases htr : (o.can_be_spent inp.satisfier).truthy = true
            · simp only [spendFold, hlk, htr, if_true] at hsf
              obtain ⟨hall, hs⟩ := (ih (acc + o.amount) s).mp hsf
              refine ⟨?_, ?_⟩
              · intro i hi
                rcases List.mem_cons.mp hi with hi | hi
                · exact ⟨o, by rw [hi]; exact hlk, by rw [hi]; exact htr⟩
                · exact hall i hi
              · rw [refSum_cons, hlk]
                show s = acc + (o.amount + refSum u rest)
                omega
            · simp [spendFold, hlk, htr] at hsf
      · rintro ⟨hall, hs⟩
        obtain ⟨o, hlk, htr⟩ := hall inp (List.mem_cons_self inp rest)
        simp only [spendFold, hlk, htr, if_true]
        refine (ih (acc + o.amount) s).mpr
          ⟨fun i hi => hall i (List.mem_cons_of_mem _ hi), ?_⟩
        rw [hs, refSum_cons, hlk]
        show acc + (o.amount + refSum u rest) = acc + o.amount + refSum u rest
        omega

theorem spendFold_eq_none_iff (u : UtxoMap) (l : List Input) (acc : Int) :
    spendFold u l acc = none ↔
      ¬ (∀ inp ∈ l, ∃ o, dlookup u (inputKey inp) = some o ∧
          (o.can_be_spent inp.satisfier).truthy = true) := by
  constructor
  · intro hn hall
    have : spendFold u l acc = some (acc + refSum u l) :=
      (spendFold_eq_some_iff u l acc _).mpr ⟨hall, rfl⟩
    rw [hn] at this
    exact absurd this (by simp)
  · intro hnall
    cases hsf : spendFold u l acc with
    | none => rfl
    | some s =>
        exact absurd ((spendFold_eq_some_iff u l acc s).mp hsf).1 hnall

/-! ## Claim C2 -/

/-- C2 counterexample: a spending transaction whose two inputs reference
the **same** UTXO entry `(1, 0)` (amount 10) and whose single output is 20
is accepted by `Transaction.validate` — the claim states it must return
false on a double reference within the same validation call. -/
theorem validate_double_reference_accepted :
    Transaction.validate
      ⟨some [⟨1, 0, []⟩, ⟨1, 0, []⟩], some [⟨none, 20⟩]⟩
      [((1, 0), ⟨none, 10⟩)] = true := by
  rfl

/-- C2 (amended): for a spending transaction (inputs present and
non-empty), `Transaction.validate` returns true iff the outputs are
present and non-empty, every input resolves to an existing entry whose
constraint accepts its satisfier, and the output total does not exceed the
referenced total counted once per referencing input (a doubly-referenced
entry is counted twice; there is no double-reference rejection). -/
theorem validate_spending_characterization (u : UtxoMap) (t : Transaction)
    (inps : List Input) (hin : t.inputs = some inps) (hne : inps ≠ []) :
    Transaction.validate t u = true ↔
      (optTruthy t.outputs = true ∧
        (∀ inp ∈ inps, ∃ o, dlookup u (inputKey inp) = some o ∧
          (o.can_be_spent inp.satisfier).truthy = true) ∧
        outSum t ≤ refSum u inps) := by
  have hval : Transaction.validate t u =
      (if optTruthy t.outputs = false then false
       else
         match spendFold u inps 0 with
         | none => false
         | some input_sum => decide (outSum t ≤ input_sum)) := by
    unfold Transaction.validate
    rw [hin]
    cases inps with
    | nil => exact absurd rfl hne
    | cons a l => rfl
  rw [hval]
  by_cases ho : optTruthy t.outputs = true
  · rw [if_neg (by simp [ho])]
    cases hsf : spendFold u inps 0 with
    | none =>
        have hnall := (spendFold_eq_none_iff u inps 0).mp hsf
        constructor
        · intro hfalse
          exact absurd hfalse (by simp)
        · rintro ⟨-, hall, -⟩
          exact absurd hall hnall
    | some sI =>
        obtain ⟨hall, hs⟩ := (spendFold_eq_some_iff u inps 0 sI).mp hsf
        have hsI : sI = refSum u inps := by omega
        simp only [decide_eq_true_eq, hsI]
        constructor
        · intro hle
          exact ⟨ho, hall, hle⟩
        · rintro ⟨-, -, hle⟩
          exact hle
  · have ho2 : optTruthy t.outputs = false := by
      cases hoo : optTruthy t.outputs with
      | false => rfl
      | true => exact absurd hoo ho
    rw [if_pos ho2]
    constructor
    · intro hfalse
      exact absurd hfalse (by simp)
    · rintro ⟨hcontra, -, -⟩
      exact absurd hcontra ho

/-- C2 witness: the amended characterization evaluated on a one-input
transaction spending an existing unconstrained UTXO. -/
theorem validate_spending_characterization_witness :
    Transaction.validate ⟨some [⟨1, 0, []⟩], some [⟨none, 5⟩]⟩
        [((1, 0), ⟨none, 7⟩)] = true ↔
      (optTruthy (some [(⟨none, 5⟩ : Output)] : Option (List Output)) = true ∧
        (∀ inp ∈ [(⟨1, 0, []⟩ : Input)], ∃ o,
          dlookup [((1, 0), (⟨none, 7⟩ : Output))] (inputKey inp) = some o ∧
          (o.can_be_spent inp.satisfier).truthy = true) ∧
        outSum ⟨some [⟨1, 0, []⟩], some [⟨none, 5⟩]⟩ ≤
          refSum [((1, 0), ⟨none, 7⟩)] [⟨1, 0, []⟩]) :=
  validate_spending_characterization _ _ _ rfl (by simp)

/-! ## Claim C3 -/

/-- C3 (code bug): a constraint script that returns a truthy **non-boolean**
value (e.g. a non-empty string) is passed through by `can_be_spent`
unchanged, so the result is truthy and the call sites treat the output as
spendable — fail-open, contradicting both the claim and the source's own
doc ("returns anything except True: do not allow spending").  The third
conjunct shows `Transaction.validate` accepting a spend gated by such a
constraint. -/
theorem can_be_spent_nonbool_fail_open :
    (Output.can_be_spent ⟨some (fun _ => .ret ⟨true, false⟩), 10⟩ []).truthy
        = true ∧
    (Output.can_be_spent ⟨some (fun _ => .ret ⟨true, false⟩), 10⟩ []).isBool
        = false ∧
    Transaction.validate ⟨some [⟨1, 0, []⟩], some [⟨none, 10⟩]⟩
        [((1, 0), ⟨some (fun _ => .ret ⟨true, false⟩), 10⟩)] = true :=
  ⟨rfl, rfl, rfl⟩

/-! ## Claim C9 -/

/-- C9 counterexample: a transaction with `inputs = None` and **no**
outputs has total output amount `A = 0 ≤ 0 = m`, yet `validateMint 0`
returns false — the claimed iff `validateMint(m) = true ↔ A ≤ m` fails at
empty outputs. -/
theorem validateMint_empty_outputs_rejected :
    Transaction.validateMint ⟨none, some []⟩ 0 = false ∧
      outSum ⟨none, some []⟩ ≤ (0 : Int) :=
  ⟨rfl, by simp [outSum]⟩

/-- C9 (amended): for a transaction with `inputs = None`,
`validateMint(m)` returns true iff the outputs are present and non-empty
**and** the total output amount is at most `m`; with absent or empty
outputs it returns false regardless of `m`. -/
theorem validateMint_characterization (t : Transaction) (m : Int)
    (hmint : t.inputs = none) :
    Transaction.validateMint t m = true ↔
      (optTruthy t.outputs = true ∧ outSum t ≤ m) := by
  by_cases ho : optTruthy t.outputs = true
  · simp [Transaction.validateMint, hmint, ho]
  · have ho2 : optTruthy t.outputs = false := by
      cases hoo : optTruthy t.outputs with
      | false => rfl
      | true => exact absurd hoo ho
    simp [Transaction.validateMint, hmint, ho2]

/-- C9 witness: the amended characterization evaluated on a coinbase with
one output of amount 5 against cap 7. -/
theorem validateMint_characterization_witness :
    Transaction.validateMint ⟨none, some [⟨none, 5⟩]⟩ 7 = true ↔
      (optTruthy (some [(⟨none, 5⟩ : Output)] : Option (List Output)) = true ∧
        outSum ⟨none, some [⟨none, 5⟩]⟩ ≤ 7) :=
  validateMint_characterization _ _ rfl

/-! ## Claim C10 -/

/-- C10: a transaction whose `inputs` field is an empty **list** (present
but empty, not `None`) is accepted by `Transaction.validate` for every
UTXO mapping and every outputs field (the falsy empty list takes the mint
branch), while `Transaction.validateMint` rejects the same transaction for
every cap because its `inputs` field is not `None`. -/
theorem empty_inputs_validate_vs_validateMint (u : UtxoMap)
    (outs : Option (List Output)) (m : Int) :
    Transaction.validate ⟨some [], outs⟩ u = true ∧
      Transaction.validateMint ⟨some [], outs⟩ m = false :=
  ⟨rfl, rfl⟩

/-! ## Claim C8 -/

/-- C8: `calcMerkleRoot` returns 0 for the empty list, the single item's
hash unchanged for a one-element list, and otherwise agrees with the
spec-modelled `specRoot`, which repeatedly pads an odd-length level with a
literal zero sibling (never duplicating the last hash) and combines exact
adjacent pairs via `sha256` of the two 32-byte big-endian encodings. -/
theorem calcMerkleRoot_matches_spec (sha : List Nat → Nat) :
    calcMerkleRoot sha [] = 0 ∧
      (∀ x, calcMerkleRoot sha [x] = x) ∧
      (∀ l, calcMerkleRoot sha l = specRoot sha l) := by
  have hmain : ∀ l, calcMerkleRoot sha l = specRoot sha l := by
    intro l
    by_cases h : l = []
    · subst h
      rw [calcMerkleRoot, specRoot]
      simp
    · rw [calcMerkleRoot, if_neg h]
      exact rootLoop_eq_specRoot sha l h
  refine ⟨?_, fun x => ?_, hmain⟩
  · rw [hmain [], specRoot]
  · rw [hmain [x], specRoot]

/-! ## Claim C4 -/

/-- C4 counterexample: a block whose only transaction is a coinbase with
**no outputs** fails `validateMint` (claim: this must invalidate the whole
block), yet `Block.validate` accepts the block and returns the unchanged
UTXO set — the `tx.outputs and not tx.validateMint(maxMint)` guard skips
the mint check when the outputs are falsy. -/
theorem block_accepts_outputless_coinbase :
    Block.validate (fun _ => 0) (fun _ => 0)
        ⟨some 0, 1, 0, none, [⟨none, none⟩]⟩ [] 100 = some [] ∧
      Transaction.validateMint ⟨none, none⟩ 100 = false :=
  ⟨rfl, rfl⟩

/-- C4 (amended): for a block with at least one transaction, if the first
transaction is not a coinbase (inputs present, even as an empty list), or
is a coinbase whose outputs are present and non-empty but fail
`validateMint(maxMint)`, then `Block.validate` returns the invalid marker
`None`; a coinbase first transaction with absent or empty outputs is *not*
checked against `validateMint`. -/
theorem block_validate_first_tx_requirement (hf : Block → Nat)
    (txH : Transaction → Nat) (b : Block) (u : UtxoMap) (mm : Int)
    (tx0 : Transaction) (rest : List Transaction)
    (htxs : b.transactions = tx0 :: rest)
    (hbad : ¬ (tx0.inputs = none ∧
      (optTruthy tx0.outputs = true → tx0.validateMint mm = true))) :
    Block.validate hf txH b u mm = none := by
  unfold Block.validate
  by_cases hpow : b.target ≤ hf b
  · rw [if_pos hpow]
  · rw [if_neg hpow, htxs]
    have hcond : (tx0.inputs.isSome ||
        (optTruthy tx0.outputs && !(tx0.validateMint mm))) = true := by
      cases hi : tx0.inputs with
      | some l => rfl
      | none =>
          have hrest := hbad
          rw [hi] at hrest
          have h2 : ¬ (optTruthy tx0.outputs = true →
              tx0.validateMint mm = true) := by
            intro himp
            exact hrest ⟨rfl, himp⟩
          push_neg at h2
          obtain ⟨ho, hm⟩ := h2
          have hm2 : tx0.validateMint mm = false := by
            cases hmm : tx0.validateMint mm with
            | false => rfl
            | true => exact absurd hmm hm
          simp [hi, ho, hm2]
    simp only [List.isEmpty_cons, processTxs, if_true, hcond,
      Bool.false_eq_true, if_false]

/-- C4 witness: a block whose first transaction has `inputs = []` (present,
hence non-coinbase) is rejected outright. -/
theorem block_validate_first_tx_requirement_witness :
    Block.validate (fun _ => 0) (fun _ => 0)
        ⟨some 0, 1, 0, none, [⟨some [], none⟩]⟩ [] 0 = none :=
  block_validate_first_tx_requirement (fun _ => 0) (fun _ => 0) _ [] 0
    ⟨some [], none⟩ [] rfl (by simp)

/-! ## Claim C6 -/

/-- Every branch of `extend` that returns `false` carries the original
state unchanged. -/
theorem extend_false_state_eq (hf : Block → Nat)
    (txH : Transaction → Nat) (s : BState) (b : Block) (s1 : BState)
    (h : Blockchain.extend hf txH s b = some (false, s1)) : s1 = s := by
  unfold Blockchain.extend at h
  repeat' split at h
  all_goals simp at h
  all_goals exact h.symm

/-- C6: whenever `Blockchain.extend` returns `false` (missing parent hash,
unknown parent, absent parent snapshot, or failed block validation), the
returned blockchain state is exactly the state before the call — all four
bookkeeping maps included. -/
theorem extend_false_preserves_state (hf : Block → Nat)
    (txH : Transaction → Nat) (s : BState) (b : Block) (s1 : BState)
    (h : Blockchain.extend hf txH s b = some (false, s1)) : s1 = s :=
  extend_false_state_eq hf txH s b s1 h

/-- C6 witness: extending with a block whose parent hash is `None` fails
and the theorem yields that the returned state is the initial state. -/
theorem extend_false_preserves_state_witness :
    Blockchain.init (fun _ => 0) (fun _ => 0) 1 0 0 =
      Blockchain.init (fun _ => 0) (fun _ => 0) 1 0 0 :=
  extend_false_preserves_state (fun _ => 0) (fun _ => 0)
    (Blockchain.init (fun _ => 0) (fun _ => 0) 1 0 0)
    ⟨none, 1, 0, none, []⟩
    (Blockchain.init (fun _ => 0) (fun _ => 0) 1 0 0) rfl

/-! ## Claim C1 -/

theorem insertOutputsAux_lookup_ne (h : Nat) (outs : List Output) :
    ∀ (i : Nat) (cur : UtxoMap) (k : Nat × Nat), k.1 ≠ h →
      dlookup (insertOutputsAux h outs i cur) k = dlookup cur k := by
  induction outs with
  | nil => intro i cur k _; rfl
  | cons o rest ih =>
      intro i cur k hk
      rw [insertOutputsAux, ih (i + 1) _ k hk,
        dlookup_dinsert_ne _ _ _ _ (by intro hkk; rw [hkk] at hk; exact hk rfl)]

theorem insertOutputs_lookup_ne (txH : Transaction → Nat) (tx : Transaction)
    (cur : UtxoMap) (k : Nat × Nat) (hk : k.1 ≠ txH tx) :
    dlookup (insertOutputs txH tx cur) k = dlookup cur k := by
  unfold insertOutputs
  by_cases ho : optTruthy tx.outputs = true
  · rw [if_pos ho, insertOutputsAux_lookup_ne _ _ _ _ _ hk]
  · rw [if_neg ho]

theorem insertOutputsAux_lookup_lo (h : Nat) (outs : List Output) :
    ∀ (i : Nat) (cur : UtxoMap) (j : Nat), j < i →
      dlookup (insertOutputsAux h outs i cur) (h, j) = dlookup cur (h, j) := by
  induction outs with
  | nil => intro i cur j _; rfl
  | cons o rest ih =>
      intro i cur j hj
      rw [insertOutputsAux, ih (i + 1) _ j (by omega),
        dlookup_dinsert_ne _ _ _ _ (by simp; omega)]

theorem insertOutputsAux_lookup_get (h : Nat) (outs : List Output) :
    ∀ (i : Nat) (cur : UtxoMap) (j : Nat) (hj : j < outs.length),
      dlookup (insertOutputsAux h outs i cur) (h, i + j) =
        some (outs.get ⟨j, hj⟩) := by
  induction outs with
  | nil => intro i cur j hj; exact absurd hj (by simp)
  | cons o rest ih =>
      intro i cur j hj
      cases j with
      | zero =>
          rw [Nat.add_zero, insertOutputsAux,
            insertOutputsAux_lookup_lo h rest (i + 1) _ i (by omega),
            dlookup_dinsert_self]
          rfl
      | succ j1 =>
          have hj1 : j1 < rest.length := by
            simp only [List.length_cons] at hj
            omega
          rw [insertOutputsAux, show i + (j1 + 1) = (i + 1) + j1 by omega,
            ih (i + 1) _ j1 hj1]
          rfl

theorem eraseAll_lookup_notin (spent : List (Nat × Nat)) :
    ∀ (cur : UtxoMap) (k : Nat × Nat), k ∉ spent →
      dlookup (eraseAll cur spent) k = dlookup cur k := by
  induction spent with
  | nil => intro cur k _; rfl
  | cons sk rest ih =>
      intro cur k hk
      have hk1 : k ≠ sk := fun hh => hk (by rw [hh]; exact List.mem_cons_self _ _)
      have hk2 : k ∉ rest := fun hh => hk (List.mem_cons_of_mem _ hh)
      show dlookup (eraseAll (derase cur sk) rest) k = dlookup cur k
      rw [ih _ k hk2, dlookup_derase _ _ _ hk1]

theorem checkInputs_all_ok (cur : UtxoMap) (inps : List Input) :
    ∀ (spent : List (Nat × Nat)),
      (∀ inp ∈ inps, inputKey inp ∉ spent) →
      (inps.map inputKey).Nodup →
      (∀ inp ∈ inps, ∃ o, dlookup cur (inputKey inp) = some o ∧
          (o.can_be_spent inp.satisfier).truthy = true) →
      checkInputs cur inps spent = some (spent ++ inps.map inputKey) := by
  induction inps with
  | nil => intro spent _ _ _; simp [checkInputs]
  | cons inp rest ih =>
      intro spent hfresh hnodup hok
      obtain ⟨o, hlk, htr⟩ := hok inp (List.mem_cons_self _ _)
      have hnotin : inputKey inp ∉ spent := hfresh inp (List.mem_cons_self _ _)
      rw [checkInputs, if_neg hnotin, hlk]
      simp only [htr, if_true]
      have hfresh1 : ∀ i ∈ rest, inputKey i ∉ spent ++ [inputKey inp] := by
        intro i hi hmem
        rcases List.mem_append.mp hmem with hmem | hmem
        · exact hfresh i (List.mem_cons_of_mem _ hi) hmem
        · have hkeq : inputKey i = inputKey inp := by simpa using hmem
          have : inputKey inp ∈ rest.map inputKey :=
            hkeq ▸ List.mem_map_of_mem inputKey hi
          exact (List.nodup_cons.mp (by simpa using hnodup)).1 this
      rw [ih (spent ++ [inputKey inp]) hfresh1
        (List.nodup_cons.mp (by simpa using hnodup)).2
        (fun i hi => hok i (List.mem_cons_of_mem _ hi))]
      simp

/-- C1: `Block.validate` imposes no input-sum >= output-sum conservation
check on non-coinbase transactions: for every UTXO set, mint cap, and
block `[cb, t]` whose hash beats its target and whose first transaction is
a valid coinbase, a subsequent spending transaction `t` whose output total
strictly exceeds the total of the UTXO entries its inputs reference is
accepted — provided every input references an existing entry (distinct
keys, accepted satisfiers) — and `t`'s outputs appear in the returned
UTXO mapping. -/
theorem block_validate_no_conservation_check
    (hf : Block → Nat) (txH : Transaction → Nat) (u : UtxoMap) (mm : Int)
    (b : Block) (cb t : Transaction) (inps : List Input) (outs : List Output)
    (htxs : b.transactions = [cb, t])
    (hpow : hf b < b.target)
    (hcbi : cb.inputs = none)
    (hcbm : cb.validateMint mm = true)
    (hti : t.inputs = some inps)
    (hto : t.outputs = some outs)
    (houts : outs ≠ [])
    (hnodup : (inps.map inputKey).Nodup)
    (href : ∀ inp ∈ inps, ∃ o, dlookup u (inputKey inp) = some o ∧
        (o.can_be_spent inp.satisfier).truthy = true)
    (hsep : ∀ inp ∈ inps, inp.txHash ≠ txH cb ∧ inp.txHash ≠ txH t)
    (hover : refSum u inps < outSum t) :
    ∃ m, Block.validate hf txH b u mm = some m ∧
      ∀ j (hj : j < outs.length),
        dlookup m (txH t, j) = some (outs.get ⟨j, hj⟩) := by
  have href1 : ∀ inp ∈ inps, ∃ o,
      dlookup (insertOutputs txH cb u) (inputKey inp) = some o ∧
      (o.can_be_spent inp.satisfier).truthy = true := by
    intro inp hi
    obtain ⟨o, hlk, htr⟩ := href inp hi
    refine ⟨o, ?_, htr⟩
    rw [insertOutputs_lookup_ne txH cb u (inputKey inp) (hsep inp hi).1]
    exact hlk
  have hchk : checkInputs (insertOutputs txH cb u) inps [] =
      some (inps.map inputKey) := by
    have := checkInputs_all_ok (insertOutputs txH cb u) inps []
      (by simp) hnodup href1
    simpa using this
  have hcond : (cb.inputs.isSome ||
      (optTruthy cb.outputs && !(cb.validateMint mm))) = false := by
    rw [hcbi, hcbm]
    simp
  have hproc : processTxs txH mm [cb, t] true u [] =
      some (insertOutputs txH t (insertOutputs txH cb u), inps.map inputKey) := by
    rw [processTxs, if_pos rfl, hcond]
    simp only [Bool.false_eq_true, if_false]
    rw [processTxs]
    simp only [Bool.false_eq_true, if_false]
    rw [hti]
    show (match checkInputs (insertOutputs txH cb u) inps [] with
      | none => none
      | some spent1 =>
          processTxs txH mm [] false
            (insertOutputs txH t (insertOutputs txH cb u)) spent1) =
      some (insertOutputs txH t (insertOutputs txH cb u), inps.map inputKey)
    rw [hchk]
    rfl
  refine ⟨eraseAll (insertOutputs txH t (insertOutputs txH cb u))
    (inps.map inputKey), ?_, ?_⟩
  · unfold Block.validate
    rw [if_neg (by omega), htxs]
    simp only [List.isEmpty_cons, Bool.false_eq_true, if_false, hproc]
  · intro j hj
    have hnotin : (txH t, j) ∉ inps.map inputKey := by
      intro hmem
      obtain ⟨inp, hi, hkeq⟩ := List.mem_map.mp hmem
      have hfst : inp.txHash = txH t := congrArg Prod.fst hkeq
      exact (hsep inp hi).2 hfst
    rw [eraseAll_lookup_notin _ _ _ hnotin]
    unfold insertOutputs
    rw [hto]
    have hot : optTruthy (some outs) = true := by
      cases outs with
      | nil => exact absurd rfl houts
      | cons a l => rfl
    rw [if_pos hot]
    have hget := insertOutputsAux_lookup_get (txH t) outs 0
      (insertOutputs txH cb u) j hj
    rw [Nat.zero_add] at hget
    exact hget

/-- C1 witness: a block `[coinbase minting 1, spend of a 10-coin UTXO
creating 99 coins]` is accepted and the over-spending outputs are in the
returned mapping. -/
theorem block_validate_no_conservation_check_witness :
    ∃ m, Block.validate (fun _ => 0)
        (fun tx => if tx.inputs.isSome then 6 else 5)
        ⟨some 0, 1, 0, none,
          [⟨none, some [⟨none, 1⟩]⟩, ⟨some [⟨1, 0, []⟩], some [⟨none, 99⟩]⟩]⟩
        [((1, 0), ⟨none, 10⟩)] 10 = some m ∧
      ∀ j (hj : j < [(⟨none, 99⟩ : Output)].length),
        dlookup m
          ((fun tx : Transaction => if tx.inputs.isSome then 6 else 5)
            ⟨some [⟨1, 0, []⟩], some [⟨none, 99⟩]⟩, j) =
          some ([(⟨none, 99⟩ : Output)].get ⟨j, hj⟩) :=
  block_validate_no_conservation_check
    (fun _ => 0) (fun tx => if tx.inputs.isSome then 6 else 5)
    [((1, 0), ⟨none, 10⟩)] 10 _
    ⟨none, some [⟨none, 1⟩]⟩ ⟨some [⟨1, 0, []⟩], some [⟨none, 99⟩]⟩
    [⟨1, 0, []⟩] [⟨none, 99⟩]
    rfl (by decide) rfl (by decide) rfl rfl (by simp) (by simp)
    (by
      intro inp hi
      have hinp : inp = ⟨1, 0, []⟩ := List.mem_singleton.mp hi
      subst hinp
      exact ⟨⟨none, 10⟩, rfl, rfl⟩)
    (by
      intro inp hi
      have hinp : inp = ⟨1, 0, []⟩ := List.mem_singleton.mp hi
      subst hinp
      exact ⟨by decide, by decide⟩)
    (by decide)

/-! ## Claim C7 -/

theorem tipLoop_all_le (blocks : List (Nat × Block)) (l : List (Nat × Work)) :
    ∀ (mw : Work) (tip : Option Block), (∀ p ∈ l, p.2 ≤ mw) →
      tipLoop blocks l mw tip = tip := by
  induction l with
  | nil => intro mw tip _; rfl
  | cons q rest ih =>
      intro mw tip hle
      obtain ⟨k0, w0⟩ := q
      have hw : ¬ mw < w0 :=
        not_lt.mpr (hle (k0, w0) (List.mem_cons_self _ _))
      rw [tipLoop, if_neg hw]
      exact ih mw tip (fun p hp => hle p (List.mem_cons_of_mem _ hp))

theorem tipLoop_first_max (blocks : List (Nat × Block)) (l : List (Nat × Work)) :
    ∀ (mw : Work) (tip : Option Block), (∃ p ∈ l, mw < p.2) →
      ∃ l1 k w l2, l = l1 ++ (k, w) :: l2 ∧ mw < w ∧
        (∀ p ∈ l1, p.2 < w) ∧ (∀ p ∈ l2, p.2 ≤ w) ∧
        tipLoop blocks l mw tip = dlookup blocks k := by
  induction l with
  | nil =>
      rintro mw tip ⟨p, hp, -⟩
      exact absurd hp (by simp)
  | cons q rest ih =>
      rintro mw tip hex
      obtain ⟨k0, w0⟩ := q
      by_cases hw : mw < w0
      · rw [tipLoop, if_pos hw]
        by_cases hex2 : ∃ p ∈ rest, w0 < p.2
        · obtain ⟨l1, k, w, l2, heq, hww, hl1, hl2, hres⟩ :=
            ih w0 (dlookup blocks k0) hex2
          refine ⟨(k0, w0) :: l1, k, w, l2, by rw [heq]; rfl,
            lt_trans hw hww, ?_, hl2, hres⟩
          intro p hp
          rcases List.mem_cons.mp hp with h | h
          · rw [h]; exact hww
          · exact hl1 p h
        · push_neg at hex2
          rw [tipLoop_all_le blocks rest w0 _ hex2]
          exact ⟨[], k0, w0, rest, rfl, hw, by simp, hex2, rfl⟩
      · rw [tipLoop, if_neg hw]
        have hex2 : ∃ p ∈ rest, mw < p.2 := by
          obtain ⟨p, hp, hpw⟩ := hex
          rcases List.mem_cons.mp hp with h | h
          · rw [h] at hpw; exact absurd hpw hw
          · exact ⟨p, h, hpw⟩
        obtain ⟨l1, k, w, l2, heq, hww, hl1, hl2, hres⟩ := ih mw tip hex2
        refine ⟨(k0, w0) :: l1, k, w, l2, by rw [heq]; rfl, hww, ?_, hl2, hres⟩
        intro p hp
        rcases List.mem_cons.mp hp with h | h
        · rw [h]; exact lt_of_le_of_lt (not_lt.mp hw) hww
        · exact hl1 p h

/-- C7: on a non-empty chain state (whose recorded works all exceed the
loop's `-1` start value, as every real work does, and whose work entries
all have a stored block), `getTip` returns the stored block of the first
entry of `cumulative_work` — i.e. the first-inserted block — attaining the
maximum cumulative work: the strict maximum when one exists, and the
first-inserted of the tied blocks otherwise. -/
theorem getTip_first_max (s : BState)
    (hne : s.cumulative_work ≠ [])
    (hgt : ∀ p ∈ s.cumulative_work, (((-1 : ℚ) : Work)) < p.2)
    (hblk : ∀ p ∈ s.cumulative_work, ∃ blk, dlookup s.blocks p.1 = some blk) :
    ∃ k w blk, IsFirstMax s.cumulative_work k w ∧
      dlookup s.blocks k = some blk ∧ Blockchain.getTip s = some blk := by
  have hex : ∃ p ∈ s.cumulative_work, (((-1 : ℚ) : Work)) < p.2 := by
    obtain ⟨p, hp⟩ := List.exists_mem_of_ne_nil _ hne
    exact ⟨p, hp, hgt p hp⟩
  obtain ⟨l1, k, w, l2, heq, hw, hl1, hl2, hres⟩ :=
    tipLoop_first_max s.blocks s.cumulative_work (((-1 : ℚ) : Work)) none hex
  have hkmem : (k, w) ∈ s.cumulative_work := by
    rw [heq]
    exact List.mem_append_right _ (List.mem_cons_self _ _)
  obtain ⟨blk, hblk1⟩ := hblk (k, w) hkmem
  refine ⟨k, w, blk, ⟨l1, l2, heq, hl1, hl2⟩, hblk1, ?_⟩
  rw [Blockchain.getTip, hres, hblk1]

/-- C7 witness: a one-block state with work 2 yields that block as tip. -/
theorem getTip_first_max_witness :
    ∃ k w blk,
      IsFirstMax [(1, ((2 : ℚ) : Work))] k w ∧
      dlookup [(1, (⟨none, 1, 0, none, []⟩ : Block))] k = some blk ∧
      Blockchain.getTip
        ⟨0, 1, [(1, ⟨none, 1, 0, none, []⟩)], [(0, [1])],
          [(1, ((2 : ℚ) : Work))], []⟩ = some blk :=
  getTip_first_max
    ⟨0, 1, [(1, ⟨none, 1, 0, none, []⟩)], [(0, [1])],
      [(1, ((2 : ℚ) : Work))], []⟩
    (by simp)
    (by
      intro p hp
      have hp1 : p = (1, ((2 : ℚ) : Work)) := List.mem_singleton.mp hp
      rw [hp1]
      show ((-1 : ℚ) : Work) < ((2 : ℚ) : Work)
      exact WithTop.coe_lt_coe.mpr (by norm_num))
    (by
      intro p hp
      have hp1 : p = (1, ((2 : ℚ) : Work)) := List.mem_singleton.mp hp
      rw [hp1]
      exact ⟨⟨none, 1, 0, none, []⟩, rfl⟩)

/-! ## Claim C5: supporting lemmas -/

theorem dlookup_mem_keys {κ α : Type} [DecidableEq κ] (l : List (κ × α))
    (k : κ) (v : α) (h : dlookup l k = some v) : k ∈ l.map Prod.fst := by
  induction l with
  | nil => exact absurd h (by simp [dlookup])
  | cons p rest ih =>
      rw [dlookup] at h
      by_cases hp : p.1 = k
      · exact hp ▸ List.mem_map_of_mem Prod.fst (List.mem_cons_self _ _)
      · rw [if_neg hp] at h
        exact List.mem_cons_of_mem _ (ih h)

theorem dlookup_none_of_not_mem_keys {κ α : Type} [DecidableEq κ]
    (l : List (κ × α)) (k : κ) (h : k ∉ l.map Prod.fst) :
    dlookup l k = none := by
  cases hl : dlookup l k with
  | none => rfl
  | some v => exact absurd (dlookup_mem_keys l k v hl) h

theorem appendAt_keys_mem (l : List (Nat × List Nat)) (k x m : Nat) :
    m ∈ (appendAt l k x).map Prod.fst → m ∈ l.map Prod.fst ∨ m = k := by
  induction l with
  | nil =>
      intro h
      simp [appendAt] at h
      exact Or.inr h
  | cons p rest ih =>
      intro h
      obtain ⟨pk, pv⟩ := p
      by_cases hp : pk = k
      · rw [appendAt, if_pos hp] at h
        simp only [List.map_cons, List.mem_cons] at h ⊢
        rcases h with h | h
        · exact Or.inl (Or.inl h)
        · exact Or.inl (Or.inr h)
      · rw [appendAt, if_neg hp] at h
        simp only [List.map_cons, List.mem_cons] at h ⊢
        rcases h with h | h
        · exact Or.inl (Or.inl h)
        · rcases ih h with h2 | h2
          · exact Or.inl (Or.inr h2)
          · exact Or.inr h2

theorem appendAt_keysNodup (l : List (Nat × List Nat)) (k x : Nat)
    (hn : keysNodup l) : keysNodup (appendAt l k x) := by
  induction l with
  | nil => simp [appendAt, keysNodup]
  | cons p rest ih =>
      obtain ⟨pk, pv⟩ := p
      have hn2 := hn
      unfold keysNodup at hn2
      simp only [List.map_cons, List.nodup_cons] at hn2
      by_cases hp : pk = k
      · rw [keysNodup, appendAt, if_pos hp]
        simp only [List.map_cons, List.nodup_cons]
        exact hn2
      · rw [keysNodup, appendAt, if_neg hp]
        simp only [List.map_cons, List.nodup_cons]
        refine ⟨?_, ih hn2.2⟩
        intro hmem
        rcases appendAt_keys_mem rest k x pk hmem with h2 | h2
        · exact hn2.1 h2
        · exact hp h2

theorem dlookup_appendAt_self (l : List (Nat × List Nat)) (k x : Nat) :
    dlookup (appendAt l k x) k = some ((dlookup l k).getD [] ++ [x]) := by
  induction l with
  | nil => simp [appendAt, dlookup]
  | cons p rest ih =>
      obtain ⟨pk, pv⟩ := p
      by_cases hp : pk = k
      · rw [appendAt, if_pos hp, dlookup, if_pos hp, dlookup, if_pos hp]
        rfl
      · rw [appendAt, if_neg hp, dlookup, if_neg hp, dlookup, if_neg hp, ih]

theorem dlookup_appendAt_ne (l : List (Nat × List Nat)) (k k2 x : Nat)
    (h : k2 ≠ k) : dlookup (appendAt l k x) k2 = dlookup l k2 := by
  induction l with
  | nil =>
      rw [appendAt, dlookup, dlookup]
      rw [if_neg (fun hh => h hh.symm)]
      rfl
  | cons p rest ih =>
      obtain ⟨pk, pv⟩ := p
      by_cases hp : pk = k
      · rw [appendAt, if_pos hp, dlookup, dlookup]
        have hpk2 : ¬ pk = k2 := by rw [hp]; exact fun hh => h hh.symm
        rw [if_neg hpk2, if_neg hpk2]
      · rw [appendAt, if_neg hp, dlookup, dlookup]
        by_cases hp2 : pk = k2
        · rw [if_pos hp2, if_pos hp2]
        · rw [if_neg hp2, if_neg hp2, ih]

theorem findHeight_spec (l : List (Nat × List Nat)) (ph hh : Nat)
    (hn : keysNodup l) (h : findHeight l ph = some hh) :
    ∃ lst, dlookup l hh = some lst ∧ ph ∈ lst := by
  induction l with
  | nil => exact absurd h (by simp [findHeight])
  | cons p rest ih =>
      obtain ⟨pk, pv⟩ := p
      have hn2 := hn
      unfold keysNodup at hn2
      simp only [List.map_cons, List.nodup_cons] at hn2
      by_cases hmem : ph ∈ pv
      · rw [findHeight, if_pos hmem] at h
        injection h with hk
        refine ⟨pv, ?_, hmem⟩
        rw [dlookup, if_pos hk]
      · rw [findHeight, if_neg hmem] at h
        obtain ⟨lst, hlk, hm⟩ := ih hn2.2 h
        refine ⟨lst, ?_, hm⟩
        have hne : ¬ pk = hh := by
          intro hkk
          exact hn2.1 (hkk ▸ dlookup_mem_keys rest hh lst hlk)
        rw [dlookup, if_neg hne]
        exact hlk

/-! ## Claim C5 -/

/-- Shape of a successful `extend`: all guards passed and the state is the
record with the four updated maps. -/
theorem extend_success_elim (hf : Block → Nat) (txH : Transaction → Nat)
    (s : BState) (b : Block) (s1 : BState)
    (hext : Blockchain.extend hf txH s b = some (true, s1)) :
    ∃ ph pu nu phh pw,
      b.prior_block_hash = some ph ∧
      dcontains s.blocks ph = true ∧
      (dlookup s.utxo_sets ph).join = some pu ∧
      Block.validate hf txH b pu s.maxMintCoinsPerTx = some nu ∧
      findHeight s.block_heights ph = some phh ∧
      dlookup s.cumulative_work ph = some pw ∧
      s1 = { s with
        blocks := dinsert s.blocks (hf b) b
        utxo_sets := dinsert s.utxo_sets (hf b) (some nu)
        block_heights := appendAt s.block_heights (phh + 1) (hf b)
        cumulative_work := dinsert s.cumulative_work (hf b)
          (pw + getWork s.genesisTarget b.target) } := by
  unfold Blockchain.extend at hext
  repeat' split at hext
  all_goals simp at hext
  rename_i x4 ph hprior hcont x3 pu hjoin x2 nu hval x1 phh hfh x0 pw hcw
  exact ⟨ph, pu, nu, phh, pw, hprior, of_not_not hcont, hjoin, hval, hfh, hcw,
    hext.symm⟩

theorem chainInv_extend (hf : Block → Nat) (txH : Transaction → Nat)
    (L : List Block) (g : Block) (s : BState) (b : Block) (r : Bool)
    (s1 : BState)
    (hgL : g ∈ L)
    (hgprior : g.prior_block_hash = some 0)
    (hinj : ∀ b1 ∈ L, ∀ b2 ∈ L, hf b1 = hf b2 → b1 = b2)
    (h0 : ∀ x ∈ L, hf x ≠ 0)
    (hbL : b ∈ L)
    (hInv : ChainInv hf txH L (hf g) s)
    (hext : Blockchain.extend hf txH s b = some (r, s1)) :
    ChainInv hf txH L (hf g) s1 := by
  obtain ⟨hNod, hC2, hC3⟩ := hInv
  cases r with
  | false =>
      rw [extend_false_state_eq hf txH s b s1 hext]
      exact ⟨hNod, hC2, hC3⟩
  | true =>
      obtain ⟨ph, pu, nu, phh, pw, hprior, hcont, hjoin, hval, hfh, hcw, hs1⟩ :=
        extend_success_elim hf txH s b s1 hext
      have hjoin2 : dlookup s.utxo_sets ph = some (some pu) := by
        cases hu : dlookup s.utxo_sets ph with
        | none => simp [hu, Option.join] at hjoin
        | some o =>
            cases o with
            | none => simp [hu, Option.join] at hjoin
            | some u2 =>
                simp [hu, Option.join] at hjoin
                rw [hjoin]
      obtain ⟨pb, hpb⟩ : ∃ pb, dlookup s.blocks ph = some pb := by
        rw [dcontains] at hcont
        exact Option.isSome_iff_exists.mp hcont
      have hbg : hf b ≠ hf g := by
        intro heq
        have hbgeq : b = g := hinj b hbL g hgL heq
        have hph0 : ph = 0 := by
          rw [hbgeq, hgprior] at hprior
          injection hprior with hh
          exact hh.symm
        have h2 := hC2 ph pb hpb
        exact h0 pb h2.1 (hph0 ▸ h2.2)
      have hkeyb : ∀ b0, dlookup s.blocks (hf b) = some b0 → b0 = b := by
        intro b0 hb0
        have h2 := hC2 (hf b) b0 hb0
        exact hinj b0 h2.1 b hbL h2.2
      have hre : dlookup s.blocks (hf b) = some b →
          dlookup s.cumulative_work (hf b) =
            some (pw + getWork s.genesisTarget b.target) ∧
          dlookup s.utxo_sets (hf b) = some (some nu) := by
        intro hlkb
        obtain ⟨ph2, hprior2, -, ⟨pw2, hcw2, hcwh⟩, ⟨pu2, nu2, hu2, hval2, huh⟩, -⟩ :=
          hC3 (hf b) b hlkb hbg
        have hph2 : ph2 = ph := by
          rw [hprior] at hprior2
          injection hprior2 with hh
          exact hh.symm
        subst hph2
        rw [hcw] at hcw2
        injection hcw2 with hpw2
        subst hpw2
        rw [hjoin2] at hu2
        injection hu2 with hpu2
        injection hpu2 with hpu2
        subst hpu2
        rw [hval] at hval2
        injection hval2 with hnu2
        subst hnu2
        exact ⟨hcwh, huh⟩
      subst hs1
      unfold ChainInv
      dsimp only
      refine ⟨appendAt_keysNodup _ _ _ hNod, ?_, ?_⟩
      · intro h' b' hlk
        by_cases hh : h' = hf b
        · subst hh
          rw [dlookup_dinsert_self] at hlk
          injection hlk with hb'
          rw [← hb']
          exact ⟨hbL, rfl⟩
        · rw [dlookup_dinsert_ne _ _ _ _ hh] at hlk
          exact hC2 h' b' hlk
      · intro h' b' hlk hne
        by_cases hh : h' = hf b
        · -- the freshly (re-)inserted block
          subst hh
          rw [dlookup_dinsert_self] at hlk
          injection hlk with hb'
          subst hb'
          refine ⟨ph, hprior, ?_, ?_, ?_, ?_⟩
          · by_cases hph : ph = hf b
            · rw [hph, dlookup_dinsert_self]
              exact ⟨b, rfl⟩
            · rw [dlookup_dinsert_ne _ _ _ _ hph]
              exact ⟨pb, hpb⟩
          · by_cases hph : ph = hf b
            · have hlkb : dlookup s.blocks (hf b) = some b := by
                have hpbb : pb = b := hkeyb pb (hph ▸ hpb)
                rw [← hph, hpb, hpbb]
              have hrr := hre hlkb
              have hfix : pw = pw + getWork s.genesisTarget b.target := by
                have hcwb := hcw
                rw [hph, hrr.1] at hcwb
                injection hcwb with hh2
                exact hh2.symm
              refine ⟨pw + getWork s.genesisTarget b.target, ?_, ?_⟩
              · rw [hph, dlookup_dinsert_self]
              · rw [dlookup_dinsert_self, ← hfix]
                exact congrArg some hfix
            · refine ⟨pw, ?_, ?_⟩
              · rw [dlookup_dinsert_ne _ _ _ _ hph]
                exact hcw
              · rw [dlookup_dinsert_self]
          · by_cases hph : ph = hf b
            · have hlkb : dlookup s.blocks (hf b) = some b := by
                have hpbb : pb = b := hkeyb pb (hph ▸ hpb)
                rw [← hph, hpb, hpbb]
              have hrr := hre hlkb
              have hpunu : pu = nu := by
                have hj := hjoin2
                rw [hph, hrr.2] at hj
                injection hj with hh2
                injection hh2 with hh2
                exact hh2.symm
              refine ⟨nu, nu, ?_, ?_, ?_⟩
              · rw [hph, dlookup_dinsert_self]
              · exact hpunu ▸ hval
              · rw [dlookup_dinsert_self]
            · refine ⟨pu, nu, ?_, hval, ?_⟩
              · rw [dlookup_dinsert_ne _ _ _ _ hph]
                exact hjoin2
              · rw [dlookup_dinsert_self]
          · obtain ⟨lst, hlst, hmem⟩ :=
              findHeight_spec s.block_heights ph phh hNod hfh
            refine ⟨phh, ?_, ?_⟩
            · show ph ∈ (dlookup (appendAt s.block_heights (phh + 1) (hf b))
                phh).getD []
              rw [dlookup_appendAt_ne _ _ _ _ (by omega), hlst]
              exact hmem
            · show hf b ∈ (dlookup (appendAt s.block_heights (phh + 1)
                (hf b)) (phh + 1)).getD []
              rw [dlookup_appendAt_self]
              simp
        · -- an untouched entry
          rw [dlookup_dinsert_ne _ _ _ _ hh] at hlk
          obtain ⟨ph', hprior', ⟨pb', hpb'⟩, ⟨pw', hcw1', hcw2'⟩,
            ⟨pu', nu', hu1', hval', hu2'⟩, ⟨hp', hm1', hm2'⟩⟩ :=
            hC3 h' b' hlk hne
          refine ⟨ph', hprior', ?_, ?_, ?_, ?_⟩
          · by_cases hph : ph' = hf b
            · rw [hph, dlookup_dinsert_self]
              exact ⟨b, rfl⟩
            · rw [dlookup_dinsert_ne _ _ _ _ hph]
              exact ⟨pb', hpb'⟩
          · by_cases hph : ph' = hf b
            · have hlkb : dlookup s.blocks (hf b) = some b := by
                have hpbb : pb' = b := hkeyb pb' (hph ▸ hpb')
                rw [← hph, hpb', hpbb]
              have hrr := hre hlkb
              have hpw' : pw' = pw + getWork s.genesisTarget b.target := by
                have h1 := hcw1'
                rw [hph, hrr.1] at h1
                injection h1 with hh2
                exact hh2.symm
              refine ⟨pw', ?_, ?_⟩
              · rw [hph, dlookup_dinsert_self, ← hpw']
              · rw [dlookup_dinsert_ne _ _ _ _ hh]
                exact hcw2'
            · refine ⟨pw', ?_, ?_⟩
              · rw [dlookup_dinsert_ne _ _ _ _ hph]
                exact hcw1'
              · rw [dlookup_dinsert_ne _ _ _ _ hh]
                exact hcw2'
          · by_cases hph : ph' = hf b
            · have hlkb : dlookup s.blocks (hf b) = some b := by
                have hpbb : pb' = b := hkeyb pb' (hph ▸ hpb')
                rw [← hph, hpb', hpbb]
              have hrr := hre hlkb
              have hpu' : pu' = nu := by
                have h1 := hu1'
                rw [hph, hrr.2] at h1
                injection h1 with hh2
                injection hh2 with hh2
                exact hh2.symm
              refine ⟨pu', nu', ?_, hval', ?_⟩
              · rw [hph, dlookup_dinsert_self, hpu']
              · rw [dlookup_dinsert_ne _ _ _ _ hh]
                exact hu2'
            · refine ⟨pu', nu', ?_, hval', ?_⟩
              · rw [dlookup_dinsert_ne _ _ _ _ hph]
                exact hu1'
              · rw [dlookup_dinsert_ne _ _ _ _ hh]
                exact hu2'
          · refine ⟨hp', ?_, ?_⟩
            · show ph' ∈ (dlookup (appendAt s.block_heights (phh + 1) (hf b))
                hp').getD []
              by_cases hhp : hp' = phh + 1
              · rw [hhp, dlookup_appendAt_self]
                rw [hhp] at hm1'
                exact List.mem_append_left _ hm1'
              · rw [dlookup_appendAt_ne _ _ _ _ hhp]
                exact hm1'
            · show h' ∈ (dlookup (appendAt s.block_heights (phh + 1) (hf b))
                (hp' + 1)).getD []
              by_cases hhp : hp' + 1 = phh + 1
              · rw [hhp, dlookup_appendAt_self]
                rw [hhp] at hm2'
                exact List.mem_append_left _ hm2'
              · rw [dlookup_appendAt_ne _ _ _ _ hhp]
                exact hm2'

theorem chainInv_init (hf : Block → Nat) (txH : Transaction → Nat)
    (L : List Block) (gt : Nat) (mm : Int) (gnonce : Nat)
    (hgL : genesisBlock gt gnonce ∈ L) :
    ChainInv hf txH L (hf (genesisBlock gt gnonce))
      (Blockchain.init hf txH gt mm gnonce) := by
  unfold ChainInv Blockchain.init
  dsimp only
  refine ⟨by simp [keysNodup], ?_, ?_⟩
  · intro h b hlk
    rw [dlookup] at hlk
    by_cases hh : hf (genesisBlock gt gnonce) = h
    · rw [if_pos hh] at hlk
      injection hlk with hb
      rw [← hb]
      exact ⟨hgL, hh⟩
    · rw [if_neg hh] at hlk
      exact absurd hlk (by simp [dlookup])
  · intro h b hlk hne
    rw [dlookup] at hlk
    by_cases hh : hf (genesisBlock gt gnonce) = h
    · exact absurd hh.symm hne
    · rw [if_neg hh] at hlk
      exact absurd hlk (by simp [dlookup])

theorem extendAll_cons (hf : Block → Nat) (txH : Transaction → Nat)
    (s : BState) (x : Block) (rest : List Block) :
    extendAll hf txH s (x :: rest) =
      extendAll hf txH
        (match Blockchain.extend hf txH s x with
         | some (_, s1) => s1
         | none => s) rest := rfl

/-- C5: after any sequence of `extend` calls on a fresh chain (with a
hash function that is collision-free on the submitted blocks and never
produces the genesis parent sentinel 0), every stored non-genesis block's
bookkeeping satisfies the invariant: its recorded height list entry is one
past its parent's, its cumulative work equals its parent's plus
`getWork(target)`, and its stored UTXO snapshot equals `Block.validate`
applied to the parent's stored snapshot. -/
theorem extend_bookkeeping_invariant (hf : Block → Nat)
    (txH : Transaction → Nat) (gt : Nat) (mm : Int) (gnonce : Nat)
    (bs : List Block)
    (hinj : ∀ b1 ∈ genesisBlock gt gnonce :: bs,
      ∀ b2 ∈ genesisBlock gt gnonce :: bs, hf b1 = hf b2 → b1 = b2)
    (h0 : ∀ x ∈ genesisBlock gt gnonce :: bs, hf x ≠ 0) :
    ChainInv hf txH (genesisBlock gt gnonce :: bs)
      (hf (genesisBlock gt gnonce))
      (extendAll hf txH (Blockchain.init hf txH gt mm gnonce) bs) := by
  have main : ∀ (bs2 : List Block) (s : BState),
      (∀ x ∈ bs2, x ∈ genesisBlock gt gnonce :: bs) →
      ChainInv hf txH (genesisBlock gt gnonce :: bs)
        (hf (genesisBlock gt gnonce)) s →
      ChainInv hf txH (genesisBlock gt gnonce :: bs)
        (hf (genesisBlock gt gnonce)) (extendAll hf txH s bs2) := by
    intro bs2
    induction bs2 with
    | nil => intro s _ hInv; exact hInv
    | cons x rest ih =>
        intro s hsub hInv
        have hx : x ∈ genesisBlock gt gnonce :: bs :=
          hsub x (List.mem_cons_self _ _)
        have hrest : ∀ y ∈ rest, y ∈ genesisBlock gt gnonce :: bs :=
          fun y hy => hsub y (List.mem_cons_of_mem _ hy)
        rw [extendAll_cons]
        cases hext : Blockchain.extend hf txH s x with
        | none =>
            exact ih s hrest hInv
        | some pr =>
            obtain ⟨r, s1⟩ := pr
            exact ih s1 hrest
              (chainInv_extend hf txH (genesisBlock gt gnonce :: bs)
                (genesisBlock gt gnonce) s x r s1
                (List.mem_cons_self _ _) rfl hinj h0 hx hInv hext)
  exact main bs (Blockchain.init hf txH gt mm gnonce)
    (fun x hx => List.mem_cons_of_mem _ hx)
    (chainInv_init hf txH _ gt mm gnonce (List.mem_cons_self _ _))

/-- C5 witness: the invariant evaluated on the freshly initialized chain
(empty extension sequence). -/
theorem extend_bookkeeping_invariant_witness :
    ChainInv (fun _ => 1) (fun _ => 0) [genesisBlock 1 0]
      ((fun _ : Block => 1) (genesisBlock 1 0))
      (extendAll (fun _ => 1) (fun _ => 0)
        (Blockchain.init (fun _ => 1) (fun _ => 0) 1 0 0) []) :=
  extend_bookkeeping_invariant (fun _ => 1) (fun _ => 0) 1 0 0 []
    (by
      intro b1 h1 b2 h2 _
      have e1 : b1 = genesisBlock 1 0 := List.mem_singleton.mp h1
      have e2 : b2 = genesisBlock 1 0 := List.mem_singleton.mp h2
      rw [e1, e2])
    (by intro x _; simp)
